import Mathlib

/-!
Verification development for the CustomOperator asynchronous execution core
(file src/operator/custom/custom-inl.h of the repository).

The C++ source is shallowly embedded: tensor handles (NDArray) keep only the
fields this core inspects (the engine variable handle, the storage chunk
identity, the storage kind); the worker pool, queue and idle count become an
explicit state machine with guarded steps; the process-wide recording and
training flags become an explicit flag record threaded through the task body;
the registry becomes an association list with an explicit warning counter.
-/

namespace Custom

/-- Storage kinds of an NDArray, after the NDArrayStorageType enumeration. -/
inductive StorageType
  | kUndefinedStorage
  | kDefaultStorage
  | kRowSparseStorage
  | kCSRStorage
deriving DecidableEq, Repr

/-- The slice of an NDArray this core inspects: its engine variable handle
(var), the identity of its backing storage chunk (chunk), and its storage
kind. Handles are modelled by natural numbers. -/
structure NDArray where
  var : Nat
  chunk : Nat
  storage_type : StorageType
deriving DecidableEq, Repr

/-- NDArray.SparseUpdateChunk, as used at custom-inl.h lines 87 and 124: the
destination handle is rebound to share the storage chunk of the source. -/
def NDArray.SparseUpdateChunk (dst src : NDArray) : NDArray :=
  { dst with chunk := src.chunk }

/-- An entry is skipped by the reconciliation pass when its storage kind is
dense (kDefaultStorage) or undefined (kUndefinedStorage); custom-inl.h
lines 83-85 and 120-122. -/
def skipsReconcile (a : NDArray) : Prop :=
  a.storage_type = StorageType.kDefaultStorage ∨
    a.storage_type = StorageType.kUndefinedStorage

instance (a : NDArray) : Decidable (skipsReconcile a) := by
  unfold skipsReconcile; infer_instance

/-- Replace the element at the given index by f of itself; the list is
returned unchanged when the index is out of range. Models the write
outputs[out_idx] = ... on the outputs vector. -/
def modifyIdx (f : NDArray → NDArray) : Nat → List NDArray → List NDArray
  | _, [] => []
  | 0, x :: xs => f x :: xs
  | n + 1, x :: xs => x :: modifyIdx f n xs

/-- The loop body of the sparse reconciliation pass in the naive branch of
CustomOperator::Push, custom-inl.h lines 82-90: iterate over arrs (paired
with its parallel tag) in index order with a second counter out_idx; skip
dense or undefined entries; when the tag of a remaining entry is a member of
output_tags, rebind outputs[out_idx] to share the storage chunk of the entry
and increment out_idx. -/
def reconcileGoNaive (output_tags : List Int) :
    List (NDArray × Int) → Nat → List NDArray → List NDArray
  | [], _, outputs => outputs
  | (a, t) :: rest, out_idx, outputs =>
    if skipsReconcile a then
      reconcileGoNaive output_tags rest out_idx outputs
    else if t ∈ output_tags then
      reconcileGoNaive output_tags rest (out_idx + 1)
        (modifyIdx (fun o => o.SparseUpdateChunk a) out_idx outputs)
    else
      reconcileGoNaive output_tags rest out_idx outputs

/-- The sparse reconciliation pass of the naive branch, entered with
out_idx = 0 on the zipped (arrs, tags) sequence. -/
def sparseReconcileNaive (arrs : List NDArray) (tags : List Int)
    (output_tags : List Int) (outputs : List NDArray) : List NDArray :=
  reconcileGoNaive output_tags (arrs.zip tags) 0 outputs

/-- The loop body of the sparse reconciliation pass inside the PushSync patch
closure of the pooled branch, custom-inl.h lines 119-127. The C++ statements
are identical to the naive branch; the embedding transcribes them again so
the agreement of the two paths is proved, not assumed. -/
def reconcileGoPooled (output_tags : List Int) :
    List (NDArray × Int) → Nat → List NDArray → List NDArray
  | [], _, outputs => outputs
  | (a, t) :: rest, out_idx, outputs =>
    if skipsReconcile a then
      reconcileGoPooled output_tags rest out_idx outputs
    else if t ∈ output_tags then
      reconcileGoPooled output_tags rest (out_idx + 1)
        (modifyIdx (fun o => o.SparseUpdateChunk a) out_idx outputs)
    else
      reconcileGoPooled output_tags rest out_idx outputs

/-- The sparse reconciliation pass of the pooled patch closure. -/
def sparseReconcilePooled (arrs : List NDArray) (tags : List Int)
    (output_tags : List Int) (outputs : List NDArray) : List NDArray :=
  reconcileGoPooled output_tags (arrs.zip tags) 0 outputs

/-- The qualifying entries of the reconciliation pass: the (entry, tag) pairs
of arrs zipped with tags, in order, whose storage kind is neither dense nor
undefined and whose tag is a member of output_tags. -/
def qualifying (arrs : List NDArray) (tags : List Int)
    (output_tags : List Int) : List NDArray :=
  ((arrs.zip tags).filter
    (fun p => !(decide (skipsReconcile p.1)) && decide (p.2 ∈ output_tags))).map
    Prod.fst

/-- Patch the k-th output with the k-th qualifying entry, in order; surplus
outputs are left untouched, surplus qualifying entries patch nothing. -/
def patchSeq : List NDArray → List NDArray → List NDArray
  | _, [] => []
  | [], o :: outs => o :: outs
  | q :: qs, o :: outs => o.SparseUpdateChunk q :: patchSeq qs outs

/-- The process-wide recording and training flags read and written through
Imperative::Get, modelled as an explicit record. -/
structure Flags where
  is_recording : Bool
  is_training : Bool
deriving DecidableEq, Repr

/-- Imperative::set_is_recording: installs the new value and returns the
previous one. -/
def set_is_recording (f : Flags) (b : Bool) : Flags × Bool :=
  ({ f with is_recording := b }, f.is_recording)

/-- Imperative::set_is_training: installs the new value and returns the
previous one. -/
def set_is_training (f : Flags) (b : Bool) : Flags × Bool :=
  ({ f with is_training := b }, f.is_training)

/-- The flag-scoping part of the queued lambda of the pooled path,
custom-inl.h lines 96-102: swap in the recording and training values saved
in the task, capturing the previous values; run func (which observes the
flags current at that point); restore the previous values in reverse order.
The value func computes is returned together with the final flag state. -/
def taskFlagScope {σ : Type} (recording training : Bool)
    (func : Flags → σ → σ) (amb : Flags) (s : σ) : Flags × σ :=
  let p1 := set_is_recording amb recording
  let prev_recording := p1.2
  let p2 := set_is_training p1.1 training
  let prev_training := p2.2
  let s2 := func p2.1 s
  let p3 := set_is_training p2.1 prev_training
  let p4 := set_is_recording p3.1 prev_recording
  (p4.1, s2)

/-- The mutable state of the CustomOperator worker-pool machine: the task
queue q (front = next to pop), the number of spawned workers (workers_.size),
the idle counter num_free_threads, the shutdown flag, how many workers have
exited their loop, plus ghost logs recording the tasks taken (in dequeue
order), completed (in completion order) and pushed (in submission order),
and the list of tasks currently taken but unfinished. cap is the value of
MXNET_CUSTOM_OP_NUM_THREADS (default 16). Tasks are identified by numbers. -/
structure Engine where
  naive_engine : Bool
  cap : Nat
  q : List Nat
  workers : Nat
  num_free_threads : Nat
  destructing : Bool
  exited : Nat
  runningTasks : List Nat
  takenLog : List Nat
  doneLog : List Nat
  pushedLog : List Nat
deriving DecidableEq, Repr

def initEngine (naive : Bool) (cap : Nat) : Engine :=
  { naive_engine := naive, cap := cap, q := [], workers := 0,
    num_free_threads := 0, destructing := false, exited := 0,
    runningTasks := [], takenLog := [], doneLog := [], pushedLog := [] }

/-- CustomOperator::SetNumThreads, custom-inl.h lines 175-181: clamp the
requested size to the configured cap, then spawn one worker at a time from
the current size up to the clamped target, each spawn incrementing the idle
counter once. A target at or below the current size spawns nothing. -/
def SetNumThreads (s : Engine) (num_threads : Nat) : Engine :=
  let n := min s.cap num_threads
  let spawned := n - s.workers
  { s with workers := s.workers + spawned,
           num_free_threads := s.num_free_threads + spawned }

/-- CustomOperator::CreateThreads, custom-inl.h lines 182-184. -/
def CreateThreads (s : Engine) (num_new_threads : Nat) : Engine :=
  SetNumThreads s (s.workers + num_new_threads)

/-- The pooled branch of CustomOperator::Push after the task closure is
built, custom-inl.h lines 94-137: enqueue the task at the back of q; then,
if q.size() exceeds num_free_threads, call CreateThreads with the deficit;
finally all waiting workers are notified. -/
def pushPooled (s : Engine) (t : Nat) : Engine :=
  let s1 := { s with q := s.q ++ [t], pushedLog := s.pushedLog ++ [t] }
  if s1.q.length > s1.num_free_threads then
    CreateThreads s1 (s1.q.length - s1.num_free_threads)
  else s1

/-- Events of the worker-pool machine. push is CustomOperator::Push in
pooled mode; take is an idle worker popping the queue head inside
ThreadTarget (lines 164-168); finish is a worker completing the popped task
body and re-incrementing the idle counter (line 170); shutdown is the
destructor setting destructing_; exitWorker is a worker leaving its outer
loop, which the code permits only when the queue is empty and destructing_
is set (line 162). -/
inductive EngineOp
  | push (t : Nat)
  | take
  | finish (i : Nat)
  | shutdown
  | exitWorker
deriving DecidableEq, Repr

/-- One guarded step of the worker-pool machine; an event whose guard fails
leaves the state unchanged. -/
def stepE (s : Engine) : EngineOp → Engine
  | EngineOp.push t => if s.naive_engine then s else pushPooled s t
  | EngineOp.take =>
    match s.q with
    | [] => s
    | t :: rest =>
      if 1 ≤ s.num_free_threads then
        { s with q := rest,
                 num_free_threads := s.num_free_threads - 1,
                 runningTasks := s.runningTasks ++ [t],
                 takenLog := s.takenLog ++ [t] }
      else s
  | EngineOp.finish i =>
    match s.runningTasks[i]? with
    | none => s
    | some t =>
      { s with runningTasks := s.runningTasks.eraseIdx i,
               num_free_threads := s.num_free_threads + 1,
               doneLog := s.doneLog ++ [t] }
  | EngineOp.shutdown => { s with destructing := true }
  | EngineOp.exitWorker =>
    if s.q = [] ∧ s.destructing ∧ s.exited < s.workers then
      { s with exited := s.exited + 1 }
    else s

def runE (s : Engine) : List EngineOp → Engine
  | [] => s
  | op :: ops => runE (stepE s op) ops

/-- CustomOperator destructor, custom-inl.h lines 139-148: in naive mode it
returns immediately; otherwise it sets destructing_, notifies the workers
and joins each of them. -/
def destructorRun (s : Engine) : Engine :=
  if s.naive_engine then s else { s with destructing := true }

/-- Number of join calls the destructor performs: none in naive mode, one
per element of workers_ otherwise. -/
def destructorJoins (s : Engine) : Nat :=
  if s.naive_engine then 0 else s.workers

/-- Caller-visible state a Push interacts with besides the engine: an
arbitrary computation state st that func acts on, the number of times
ctx.async_on_complete has fired, and the output handle list. -/
structure World (σ : Type) where
  st : σ
  completions : Nat
  outputs : List NDArray
deriving DecidableEq, Repr

/-- Observable events of one call to Push, in program order. -/
inductive PushEv
  | funcRun
  | reconcile
  | complete
  | enqueueTask
  | notifyWorkers
deriving DecidableEq, Repr

/-- CustomOperator::Push, custom-inl.h lines 74-137, at the granularity the
claims need: in naive mode (lines 80-93) run func on the caller thread, run
the sparse reconciliation pass, fire the completion callback once, and
return without touching the queue or the pool; otherwise (lines 94-137)
leave the world untouched, enqueue the task closure and notify. -/
def PushRun {σ : Type} (func : σ → σ) (arrs : List NDArray)
    (tags output_tags : List Int) (w : World σ) (e : Engine) (t : Nat) :
    World σ × Engine × List PushEv :=
  if e.naive_engine then
    let w1 : World σ := { w with st := func w.st }
    let w2 : World σ :=
      { w1 with outputs := sparseReconcileNaive arrs tags output_tags w1.outputs }
    let w3 : World σ := { w2 with completions := w2.completions + 1 }
    (w3, e, [PushEv.funcRun, PushEv.reconcile, PushEv.complete])
  else
    (w, pushPooled e t, [PushEv.enqueueTask, PushEv.notifyWorkers])

/-- The operator registry together with a ghost counter of logged warnings.
The std::map is modelled as an association list holding at most one entry
per name; creators are opaque handles modelled by numbers, and the nullptr
sentinel returned by Find becomes Option.none. -/
structure Registry where
  entries : List (String × Nat)
  warnings : Nat
deriving DecidableEq, Repr

def emptyRegistry : Registry := { entries := [], warnings := 0 }

/-- CustomOperator::Register, custom-inl.h lines 53-59: if the name is
already present log one warning; in every case store the creator under the
name, overwriting any prior entry. It has no failure path. -/
def RegisterOp (r : Registry) (op_type : String) (creator : Nat) : Registry :=
  { entries :=
      (op_type, creator) :: r.entries.filter (fun p => !(p.1 == op_type)),
    warnings :=
      r.warnings + (if (r.entries.lookup op_type).isSome then 1 else 0) }

/-- CustomOperator::Find, custom-inl.h lines 61-66: look the name up and
return its creator, or the absence sentinel when the name is not present. -/
def FindOp (r : Registry) (op_type : String) : Option Nat :=
  r.entries.lookup op_type

/-- Fold a sequence of Register calls over a registry. -/
def registerAll (r : Registry) : List (String × Nat) → Registry
  | [] => r
  | (n, c) :: rest => registerAll (RegisterOp r n c) rest

/-- The creator supplied by the most recent registration of the given name
in the call sequence, if any. -/
def lastCreator (name : String) : List (String × Nat) → Option Nat
  | [] => none
  | (n, c) :: rest =>
    match lastCreator name rest with
    | some c2 => some c2
    | none => if n = name then some c else none

/-- The loop of the pooled path that declares engine variables,
custom-inl.h lines 104-115: vars receives the var of every entry of arrs in
order; vars2 is driven by a counter idx that starts at 0 and is incremented
only when an element is appended to vars2. At each position the loop tests
whether output_tags contains tags[idx] (the tag indexed by the running
append count, not the loop position); if so and the entry is dense or
undefined, the iteration is abandoned without touching idx; if so and the
entry is sparse, its var is appended to vars2 and idx is incremented. -/
def buildVarsGo (tags : List Int) (output_tags : List Int) :
    List NDArray → Nat → List Nat × List Nat
  | [], _ => ([], [])
  | a :: rest, idx =>
    if tags.getD idx 0 ∈ output_tags then
      if skipsReconcile a then
        let p := buildVarsGo tags output_tags rest idx
        (a.var :: p.1, p.2)
      else
        let p := buildVarsGo tags output_tags rest (idx + 1)
        (a.var :: p.1, a.var :: p.2)
    else
      let p := buildVarsGo tags output_tags rest idx
      (a.var :: p.1, p.2)

/-- The (vars, vars2) pair handed to Engine::PushSync as its read and write
variable lists. -/
def buildVars (arrs : List NDArray) (tags output_tags : List Int) :
    List Nat × List Nat :=
  buildVarsGo tags output_tags arrs 0

/-- The write-variable list as claim C9 words it, transcribed independently
of buildVarsGo: a counter idx starting at 0, incremented exactly when an
element is appended; position i contributes its var exactly when output_tags
contains the tag indexed by the running count and the entry is neither dense
nor undefined; an entry passing the tag test but dense or undefined is
skipped without incrementing the counter. -/
def writeVarsDescribed (tags : List Int) (output_tags : List Int) :
    List NDArray → Nat → List Nat
  | [], _ => []
  | a :: rest, idx =>
    if tags.getD idx 0 ∈ output_tags ∧ ¬ skipsReconcile a then
      a.var :: writeVarsDescribed tags output_tags rest (idx + 1)
    else
      writeVarsDescribed tags output_tags rest idx

theorem patchSeq_nil (qs : List NDArray) : patchSeq qs [] = [] := by
  cases qs <;> rfl

theorem patchSeq_nil_left (outs : List NDArray) : patchSeq [] outs = outs := by
  cases outs <;> rfl

theorem modifyIdx_ge (f : NDArray → NDArray) (k : Nat) (l : List NDArray)
    (h : l.length ≤ k) : modifyIdx f k l = l := by
  induction l generalizing k with
  | nil => cases k <;> rfl
  | cons x xs ih =>
    cases k with
    | zero => simp at h
    | succ n =>
      simp only [modifyIdx]
      rw [ih n (by simpa using h)]

theorem modifyIdx_append (f : NDArray → NDArray) (pre rest : List NDArray) :
    modifyIdx f pre.length (pre ++ rest) = pre ++ modifyIdx f 0 rest := by
  induction pre with
  | nil => rfl
  | cons x xs ih =>
    simp only [List.cons_append, List.length_cons, modifyIdx, List.append_eq, ih]

theorem reconcileGoNaive_oob (output_tags : List Int)
    (l : List (NDArray × Int)) (k : Nat) (outs : List NDArray)
    (h : outs.length ≤ k) :
    reconcileGoNaive output_tags l k outs = outs := by
  induction l generalizing k outs with
  | nil => rfl
  | cons p rest ih =>
    obtain ⟨a, t⟩ := p
    simp only [reconcileGoNaive]
    by_cases hs : skipsReconcile a
    · rw [if_pos hs]; exact ih k outs h
    · rw [if_neg hs]
      by_cases ht : t ∈ output_tags
      · rw [if_pos ht, modifyIdx_ge _ _ _ h]
        exact ih (k + 1) outs (Nat.le_succ_of_le h)
      · rw [if_neg ht]; exact ih k outs h

/-- Auxiliary filtered-pair form of the qualifying list. -/
def qualPairs (output_tags : List Int) (l : List (NDArray × Int)) :
    List NDArray :=
  (l.filter
    (fun p => !(decide (skipsReconcile p.1)) && decide (p.2 ∈ output_tags))).map
    Prod.fst

theorem reconcileGoNaive_patch (output_tags : List Int)
    (l : List (NDArray × Int)) (pre rest : List NDArray) :
    reconcileGoNaive output_tags l pre.length (pre ++ rest)
      = pre ++ patchSeq (qualPairs output_tags l) rest := by
  induction l generalizing pre rest with
  | nil => simp [reconcileGoNaive, qualPairs, patchSeq_nil_left]
  | cons p l ih =>
    obtain ⟨a, t⟩ := p
    simp only [reconcileGoNaive]
    by_cases hs : skipsReconcile a
    · rw [if_pos hs, ih pre rest]
      simp [qualPairs, List.filter_cons, hs]
    · rw [if_neg hs]
      by_cases ht : t ∈ output_tags
      · rw [if_pos ht]
        cases rest with
        | nil =>
          rw [List.append_nil, modifyIdx_ge _ _ _ (Nat.le_refl _),
            reconcileGoNaive_oob _ _ _ _ (Nat.le_succ _)]
          simp [qualPairs, List.filter_cons, hs, ht, patchSeq_nil]
        | cons o rest =>
          rw [modifyIdx_append]
          have hmod : modifyIdx (fun x => x.SparseUpdateChunk a) 0 (o :: rest)
              = o.SparseUpdateChunk a :: rest := rfl
          rw [hmod]
          have hlen : pre.length + 1 = (pre ++ [o.SparseUpdateChunk a]).length := by
            simp
          have hsplit : pre ++ o.SparseUpdateChunk a :: rest
              = (pre ++ [o.SparseUpdateChunk a]) ++ rest := by simp
          rw [hsplit, hlen, ih (pre ++ [o.SparseUpdateChunk a]) rest]
          simp [qualPairs, List.filter_cons, hs, ht, patchSeq]
      · rw [if_neg ht, ih pre rest]
        simp [qualPairs, List.filter_cons, hs, ht]

theorem reconcileGo_pooled_eq_naive (output_tags : List Int)
    (l : List (NDArray × Int)) (k : Nat) (outs : List NDArray) :
    reconcileGoPooled output_tags l k outs
      = reconcileGoNaive output_tags l k outs := by
  induction l generalizing k outs with
  | nil => rfl
  | cons p l ih =>
    obtain ⟨a, t⟩ := p
    simp only [reconcileGoPooled, reconcileGoNaive]
    by_cases hs : skipsReconcile a
    · rw [if_pos hs, if_pos hs, ih]
    · rw [if_neg hs, if_neg hs]
      by_cases ht : t ∈ output_tags
      · rw [if_pos ht, if_pos ht, ih]
      · rw [if_neg ht, if_neg ht, ih]

theorem patchSeq_eq_zipWith (qs outs : List NDArray)
    (h : outs.length = qs.length) :
    patchSeq qs outs
      = List.zipWith (fun o q => o.SparseUpdateChunk q) outs qs := by
  induction qs generalizing outs with
  | nil =>
    cases outs with
    | nil => rfl
    | cons o outs => simp at h
  | cons q qs ih =>
    cases outs with
    | nil => simp at h
    | cons o outs =>
      simp only [patchSeq, List.zipWith]
      rw [ih outs (by simpa using h)]

/-- C1: with len(tags) = len(arrs) and as many outputs as qualifying
entries, the sparse reconciliation pass visits arrs in index order, leaves
every dense or undefined entry untouched (it consumes no output slot), and
rebinds outputs[k] to share the storage chunk of the k-th qualifying entry,
where k is the count of qualifying entries seen so far rather than the loop
index; the pooled patch closure performs the identical pass. -/
theorem C1_sparse_reconciliation (arrs : List NDArray) (tags : List Int)
    (output_tags : List Int) (outputs : List NDArray)
    (_hlen : tags.length = arrs.length)
    (hout : outputs.length = (qualifying arrs tags output_tags).length) :
    sparseReconcileNaive arrs tags output_tags outputs
      = List.zipWith (fun o q => o.SparseUpdateChunk q) outputs
          (qualifying arrs tags output_tags)
    ∧ sparseReconcilePooled arrs tags output_tags outputs
      = sparseReconcileNaive arrs tags output_tags outputs := by
  constructor
  · have h0 := reconcileGoNaive_patch output_tags (arrs.zip tags) [] outputs
    simp only [List.nil_append, List.length_nil] at h0
    unfold sparseReconcileNaive
    rw [h0]
    exact patchSeq_eq_zipWith _ _ hout
  · exact reconcileGo_pooled_eq_naive output_tags (arrs.zip tags) 0 outputs

/-- Witness for C1 at arrs = [dense, sparse], tags = [0, 1],
output_tags = {1}, outputs a single sparse handle. -/
theorem C1_sparse_reconciliation_witness :
    sparseReconcileNaive
        [⟨1, 10, StorageType.kDefaultStorage⟩,
         ⟨2, 20, StorageType.kRowSparseStorage⟩]
        [0, 1] [1] [⟨3, 30, StorageType.kRowSparseStorage⟩]
      = List.zipWith (fun o q => o.SparseUpdateChunk q)
          ([⟨3, 30, StorageType.kRowSparseStorage⟩] : List NDArray)
          (qualifying
            [⟨1, 10, StorageType.kDefaultStorage⟩,
             ⟨2, 20, StorageType.kRowSparseStorage⟩]
            [0, 1] [1])
    ∧ sparseReconcilePooled
        [⟨1, 10, StorageType.kDefaultStorage⟩,
         ⟨2, 20, StorageType.kRowSparseStorage⟩]
        [0, 1] [1] [⟨3, 30, StorageType.kRowSparseStorage⟩]
      = sparseReconcileNaive
        [⟨1, 10, StorageType.kDefaultStorage⟩,
         ⟨2, 20, StorageType.kRowSparseStorage⟩]
        [0, 1] [1] [⟨3, 30, StorageType.kRowSparseStorage⟩] :=
  C1_sparse_reconciliation
    [⟨1, 10, StorageType.kDefaultStorage⟩,
     ⟨2, 20, StorageType.kRowSparseStorage⟩]
    [0, 1] [1] [⟨3, 30, StorageType.kRowSparseStorage⟩]
    (by decide) (by decide)

/-- C2: when the engine is naive, Push runs func synchronously on the
calling thread, then performs the reconciliation pass, then fires the
completion exactly once, and returns with the engine state untouched:
nothing is enqueued and no worker is created. -/
theorem C2_naive_push_synchronous {σ : Type} (func : σ → σ)
    (arrs : List NDArray) (tags output_tags : List Int) (w : World σ)
    (e : Engine) (t : Nat) (h : e.naive_engine = true) :
    PushRun func arrs tags output_tags w e t
      = ({ st := func w.st, completions := w.completions + 1,
           outputs := sparseReconcileNaive arrs tags output_tags w.outputs },
         e, [PushEv.funcRun, PushEv.reconcile, PushEv.complete])
    ∧ (PushRun func arrs tags output_tags w e t).2.2.count PushEv.complete = 1
    ∧ PushEv.enqueueTask ∉ (PushRun func arrs tags output_tags w e t).2.2
    ∧ (PushRun func arrs tags output_tags w e t).2.1 = e := by
  refine ⟨?_, ?_, ?_, ?_⟩ <;> simp [PushRun, h, List.count_cons]

/-- Witness for C2 on a counter state with the engine constructed naive. -/
theorem C2_naive_push_synchronous_witness :
    PushRun Nat.succ [] [] [] ⟨0, 0, []⟩ (initEngine true 16) 0
      = ({ st := Nat.succ 0, completions := 0 + 1,
           outputs := sparseReconcileNaive [] [] [] [] },
         initEngine true 16,
         [PushEv.funcRun, PushEv.reconcile, PushEv.complete])
    ∧ (PushRun Nat.succ [] [] [] ⟨0, 0, []⟩ (initEngine true 16) 0).2.2.count
        PushEv.complete = 1
    ∧ PushEv.enqueueTask ∉
        (PushRun Nat.succ [] [] [] ⟨0, 0, []⟩ (initEngine true 16) 0).2.2
    ∧ (PushRun Nat.succ [] [] [] ⟨0, 0, []⟩ (initEngine true 16) 0).2.1
        = initEngine true 16 :=
  C2_naive_push_synchronous Nat.succ [] [] [] ⟨0, 0, []⟩ (initEngine true 16) 0
    (by decide)

/-- C3: the pooled task body swaps the recording and training values saved
in the task into the process-wide flags (capturing the previous values),
runs func under exactly those values, and afterwards restores the ambient
flag state, whatever it was. -/
theorem C3_flag_scoping {σ : Type} (recording training : Bool)
    (func : Flags → σ → σ) (amb : Flags) (s : σ) :
    taskFlagScope recording training func amb s
      = (amb, func { is_recording := recording, is_training := training } s) := by
  cases amb
  rfl

theorem lookup_filter_ne (l : List (String × Nat)) (n name : String)
    (h : name ≠ n) :
    (l.filter (fun p => !(p.1 == n))).lookup name = l.lookup name := by
  induction l with
  | nil => rfl
  | cons p rest ih =>
    obtain ⟨a, b⟩ := p
    by_cases ha : a = n
    · subst ha
      simp only [List.filter_cons]
      have : (!(a == a)) = false := by simp
      rw [this]
      simp only [Bool.false_eq_true, if_false, ih]
      have hne : (name == a) = false := by
        simp [h]
      simp [List.lookup, hne]
    · simp only [List.filter_cons]
      have : (!(a == n)) = true := by simp [ha]
      rw [this]
      simp only [if_true]
      by_cases hna : name = a
      · subst hna
        simp [List.lookup]
      · have hne : (name == a) = false := by simp [hna]
        simp [List.lookup, hne, ih]

theorem FindOp_RegisterOp (r : Registry) (n : String) (c : Nat)
    (name : String) :
    FindOp (RegisterOp r n c) name
      = if name = n then some c else FindOp r name := by
  by_cases h : name = n
  · subst h
    simp [FindOp, RegisterOp, List.lookup]
  · have hne : (name == n) = false := by simp [h]
    simp only [FindOp, RegisterOp, List.lookup, hne, if_neg h]
    exact lookup_filter_ne r.entries n name h

theorem FindOp_registerAll (ops : List (String × Nat)) (r : Registry)
    (name : String) :
    FindOp (registerAll r ops) name
      = match lastCreator name ops with
        | some c => some c
        | none => FindOp r name := by
  induction ops generalizing r with
  | nil => rfl
  | cons p rest ih =>
    obtain ⟨n, c⟩ := p
    simp only [registerAll, lastCreator]
    rw [ih (RegisterOp r n c)]
    cases hl : lastCreator name rest with
    | some c2 => rfl
    | none =>
      simp only []
      rw [FindOp_RegisterOp]
      by_cases h : name = n
      · subst h
        simp
      · have h2 : ¬ n = name := fun hh => h hh.symm
        simp only [if_neg h2]
        rw [if_neg h]

/-- C4: Find returns the creator supplied by the most recent registration of
the name and the absence sentinel when the name was never registered;
Register always succeeds, re-registration overwrites (last-writer-wins), and
each overwrite logs exactly one warning. -/
theorem C4_registry_lookup (ops : List (String × Nat)) (name : String)
    (r : Registry) (n : String) (c : Nat) :
    FindOp (registerAll emptyRegistry ops) name = lastCreator name ops
    ∧ FindOp emptyRegistry name = none
    ∧ FindOp (RegisterOp r n c) n = some c
    ∧ (RegisterOp r n c).warnings
        = r.warnings + (if (FindOp r n).isSome then 1 else 0) := by
  refine ⟨?_, rfl, ?_, rfl⟩
  · rw [FindOp_registerAll]
    cases lastCreator name ops <;> rfl
  · rw [FindOp_RegisterOp]
    simp

theorem stepE_cap (s : Engine) (op : EngineOp) : (stepE s op).cap = s.cap := by
  cases op <;>
    simp only [stepE, pushPooled, CreateThreads, SetNumThreads] <;>
    (repeat' split) <;> rfl

theorem stepE_workers_mono (s : Engine) (op : EngineOp) :
    s.workers ≤ (stepE s op).workers := by
  cases op <;>
    simp only [stepE, pushPooled, CreateThreads, SetNumThreads] <;>
    (repeat' split) <;> (try simp)

theorem stepE_workers_le_cap (s : Engine) (op : EngineOp)
    (h : s.workers ≤ s.cap) : (stepE s op).workers ≤ (stepE s op).cap := by
  rw [stepE_cap]
  cases op <;>
    simp only [stepE, pushPooled, CreateThreads, SetNumThreads] <;>
    (repeat' split) <;> (try simp) <;> omega

theorem stepE_free_running (s : Engine) (op : EngineOp)
    (h : s.num_free_threads + s.runningTasks.length = s.workers) :
    (stepE s op).num_free_threads + (stepE s op).runningTasks.length
      = (stepE s op).workers := by
  cases op with
  | push t =>
    by_cases hn : s.naive_engine
    · simpa [stepE, hn]
    · simp only [stepE, hn, Bool.false_eq_true, if_false, pushPooled,
        CreateThreads, SetNumThreads]
      split <;> simp <;> omega
  | take =>
    cases hq : s.q with
    | nil => simpa [stepE, hq]
    | cons t rest =>
      simp only [stepE, hq]
      split
      · next hfree => simp; omega
      · exact h
  | finish i =>
    cases hr : s.runningTasks[i]? with
    | none => simpa [stepE, hr]
    | some t =>
      have hi : i < s.runningTasks.length := (List.getElem?_eq_some.mp hr).1
      simp only [stepE, hr]
      simp [List.length_eraseIdx, hi]
      omega
  | shutdown => simpa [stepE]
  | exitWorker =>
    simp only [stepE]
    split <;> simpa

theorem stepE_taken_q (s : Engine) (op : EngineOp)
    (h : s.takenLog ++ s.q = s.pushedLog) :
    (stepE s op).takenLog ++ (stepE s op).q = (stepE s op).pushedLog := by
  cases op with
  | push t =>
    by_cases hn : s.naive_engine
    · simpa [stepE, hn]
    · simp only [stepE, hn, Bool.false_eq_true, if_false, pushPooled,
        CreateThreads, SetNumThreads]
      split <;> simp [← List.append_assoc, h]
  | take =>
    cases hq : s.q with
    | nil =>
      rw [hq] at h
      simp only [List.append_nil] at h
      simpa [stepE, hq]
    | cons t rest =>
      simp only [stepE, hq]
      split
      · rw [hq] at h
        simp [← h, List.append_assoc]
      · simpa [hq] using h
  | finish i =>
    cases hr : s.runningTasks[i]? with
    | none => simpa [stepE, hr]
    | some t => simpa [stepE, hr] using h
  | shutdown => simpa [stepE]
  | exitWorker =>
    simp only [stepE]
    split <;> simpa

theorem runE_append (s : Engine) (l1 l2 : List EngineOp) :
    runE s (l1 ++ l2) = runE (runE s l1) l2 := by
  induction l1 generalizing s with
  | nil => rfl
  | cons op l ih =>
    simp only [List.cons_append, runE]
    exact ih (stepE s op)

theorem runE_cap (s : Engine) (ops : List EngineOp) :
    (runE s ops).cap = s.cap := by
  induction ops generalizing s with
  | nil => rfl
  | cons op l ih => rw [runE, ih, stepE_cap]

theorem runE_workers_mono (s : Engine) (ops : List EngineOp) :
    s.workers ≤ (runE s ops).workers := by
  induction ops generalizing s with
  | nil => exact Nat.le_refl _
  | cons op l ih => exact Nat.le_trans (stepE_workers_mono s op) (ih _)

theorem runE_workers_le_cap (s : Engine) (ops : List EngineOp)
    (h : s.workers ≤ s.cap) : (runE s ops).workers ≤ (runE s ops).cap := by
  induction ops generalizing s with
  | nil => exact h
  | cons op l ih => exact ih _ (stepE_workers_le_cap s op h)

theorem runE_free_running (s : Engine) (ops : List EngineOp)
    (h : s.num_free_threads + s.runningTasks.length = s.workers) :
    (runE s ops).num_free_threads + (runE s ops).runningTasks.length
      = (runE s ops).workers := by
  induction ops generalizing s with
  | nil => exact h
  | cons op l ih => exact ih _ (stepE_free_running s op h)

theorem runE_taken_q (s : Engine) (ops : List EngineOp)
    (h : s.takenLog ++ s.q = s.pushedLog) :
    (runE s ops).takenLog ++ (runE s ops).q = (runE s ops).pushedLog := by
  induction ops generalizing s with
  | nil => exact h
  | cons op l ih => exact ih _ (stepE_taken_q s op h)

theorem stepE_cap1_done (s : Engine) (op : EngineOp)
    (hc : s.cap = 1)
    (h1 : s.num_free_threads + s.runningTasks.length = s.workers)
    (h2 : s.workers ≤ s.cap)
    (h4 : s.doneLog ++ (s.runningTasks ++ s.q) = s.pushedLog) :
    (stepE s op).doneLog ++ ((stepE s op).runningTasks ++ (stepE s op).q)
      = (stepE s op).pushedLog := by
  cases op with
  | push t =>
    by_cases hn : s.naive_engine
    · simpa [stepE, hn]
    · simp only [stepE, hn, Bool.false_eq_true, if_false, pushPooled,
        CreateThreads, SetNumThreads]
      split <;> simp <;> rw [← h4] <;> simp [List.append_assoc]
  | take =>
    cases hq : s.q with
    | nil =>
      rw [hq] at h4
      simp only [List.append_nil] at h4
      simpa [stepE, hq]
    | cons t rest =>
      simp only [stepE, hq]
      split
      · rw [hq] at h4
        simpa [List.append_assoc] using h4
      · exact h4
  | finish i =>
    cases hr : s.runningTasks[i]? with
    | none => simpa [stepE, hr]
    | some t =>
      have hi : i < s.runningTasks.length := (List.getElem?_eq_some.mp hr).1
      have hlen1 : s.runningTasks.length = 1 := by omega
      have hi0 : i = 0 := by omega
      subst hi0
      cases hrt : s.runningTasks with
      | nil => rw [hrt] at hlen1; simp at hlen1
      | cons a l =>
        rw [hrt] at hlen1
        simp only [List.length_cons, Nat.add_left_eq_self] at hlen1
        have hl : l = [] := List.length_eq_zero.mp hlen1
        subst hl
        rw [hrt] at hr
        simp only [List.getElem?_cons_zero, Option.some.injEq] at hr
        subst hr
        rw [hrt] at h4
        simp only [stepE, hrt, List.getElem?_cons_zero]
        simpa [List.append_assoc] using h4
  | shutdown => simpa [stepE]
  | exitWorker =>
    simp only [stepE]
    split <;> simpa

theorem runE_cap1_done (s : Engine) (ops : List EngineOp)
    (hc : s.cap = 1)
    (h1 : s.num_free_threads + s.runningTasks.length = s.workers)
    (h2 : s.workers ≤ s.cap)
    (h4 : s.doneLog ++ (s.runningTasks ++ s.q) = s.pushedLog) :
    (runE s ops).doneLog
        ++ ((runE s ops).runningTasks ++ (runE s ops).q)
      = (runE s ops).pushedLog := by
  induction ops generalizing s with
  | nil => exact h4
  | cons op l ih =>
    refine ih (stepE s op) ?_ ?_ ?_ ?_
    · rw [stepE_cap]; exact hc
    · exact stepE_free_running s op h1
    · exact stepE_workers_le_cap s op h2
    · exact stepE_cap1_done s op hc h1 h2 h4

/-- C5: along every pooled operation sequence the pool size never exceeds
the configured cap and never decreases; growing by delta targets the current
size plus delta clamped to the cap, and a growth request whose clamped
target is at or below the current size changes nothing. -/
theorem C5_pool_growth_capped (naive : Bool) (cap : Nat)
    (ops extra : List EngineOp) (s : Engine) (d : Nat) :
    (runE (initEngine naive cap) ops).workers ≤ cap
    ∧ (runE (initEngine naive cap) ops).workers
        ≤ (runE (initEngine naive cap) (ops ++ extra)).workers
    ∧ (CreateThreads s d).workers = max s.workers (min s.cap (s.workers + d))
    ∧ (min s.cap (s.workers + d) ≤ s.workers → CreateThreads s d = s) := by
  refine ⟨?_, ?_, ?_, ?_⟩
  · have h := runE_workers_le_cap (initEngine naive cap) ops (Nat.zero_le _)
    rwa [runE_cap] at h
  · rw [runE_append]
    exact runE_workers_mono _ extra
  · simp only [CreateThreads, SetNumThreads]
    omega
  · intro hle
    have h0 : min s.cap (s.workers + d) - s.workers = 0 := by omega
    simp [CreateThreads, SetNumThreads, h0]

/-- Witness for C5: one push grows the pool within the cap, and a growth
request clamped below the current size spawns nothing. -/
theorem C5_pool_growth_capped_witness :
    (runE (initEngine false 16) [EngineOp.push 1]).workers ≤ 16
    ∧ min (initEngine false 16).cap ((initEngine false 16).workers + 0)
        ≤ (initEngine false 16).workers
    ∧ CreateThreads (initEngine false 16) 0 = initEngine false 16 :=
  ⟨(C5_pool_growth_capped false 16 [EngineOp.push 1] []
      (initEngine false 16) 0).1,
   by decide,
   (C5_pool_growth_capped false 16 [EngineOp.push 1] []
      (initEngine false 16) 0).2.2.2 (by decide)⟩

/-- C6 counterexample: a reachable state with one task running, one idle
worker and an empty queue. Pushing a task then leaves one pending task plus
one running task, which exceeds the single idle worker, yet the code grows
the pool by nothing because its test compares the queue length alone (one,
not exceeding one idle worker) against the idle count. -/
theorem C6_growth_counterexample :
    (runE (initEngine false 16)
        [EngineOp.push 1, EngineOp.take, EngineOp.push 2, EngineOp.take,
         EngineOp.finish 0]).num_free_threads = 1
    ∧ (runE (initEngine false 16)
        [EngineOp.push 1, EngineOp.take, EngineOp.push 2, EngineOp.take,
         EngineOp.finish 0, EngineOp.push 3]).q.length
      + (runE (initEngine false 16)
        [EngineOp.push 1, EngineOp.take, EngineOp.push 2, EngineOp.take,
         EngineOp.finish 0, EngineOp.push 3]).runningTasks.length = 2
    ∧ (runE (initEngine false 16)
        [EngineOp.push 1, EngineOp.take, EngineOp.push 2, EngineOp.take,
         EngineOp.finish 0, EngineOp.push 3]).workers
      = (runE (initEngine false 16)
        [EngineOp.push 1, EngineOp.take, EngineOp.push 2, EngineOp.take,
         EngineOp.finish 0]).workers := by decide

/-- C6 (amended): after enqueuing, the code compares the number of pending
tasks (the queue length, which does not count tasks already taken by
workers) against the idle count: when pending exceeds idle the pool grows
towards pending minus idle more workers, clamped to the cap; otherwise no
growth occurs; the workers are then notified. -/
theorem C6_pending_growth {σ : Type} (s : Engine) (t : Nat)
    (func : σ → σ) (arrs : List NDArray) (tags output_tags : List Int)
    (w : World σ) (hn : s.naive_engine = false) :
    (stepE s (EngineOp.push t)).q = s.q ++ [t]
    ∧ (stepE s (EngineOp.push t)).pushedLog = s.pushedLog ++ [t]
    ∧ (stepE s (EngineOp.push t)).workers
        = (if s.q.length + 1 > s.num_free_threads
           then max s.workers
             (min s.cap (s.workers + (s.q.length + 1 - s.num_free_threads)))
           else s.workers)
    ∧ PushRun func arrs tags output_tags w s t
        = (w, pushPooled s t, [PushEv.enqueueTask, PushEv.notifyWorkers]) := by
  refine ⟨?_, ?_, ?_, by simp [PushRun, hn]⟩ <;>
    simp only [stepE, hn, Bool.false_eq_true, if_false, pushPooled,
      CreateThreads, SetNumThreads, List.length_append, List.length_cons,
      List.length_nil, Nat.zero_add]
  · split <;> rfl
  · split <;> rfl
  · split
    · simp
      omega
    · rfl

/-- Witness for C6 (amended) at the freshly constructed pooled engine. -/
theorem C6_pending_growth_witness :
    (stepE (initEngine false 16) (EngineOp.push 7)).q
        = (initEngine false 16).q ++ [7]
    ∧ (stepE (initEngine false 16) (EngineOp.push 7)).pushedLog
        = (initEngine false 16).pushedLog ++ [7]
    ∧ (stepE (initEngine false 16) (EngineOp.push 7)).workers
        = (if (initEngine false 16).q.length + 1
              > (initEngine false 16).num_free_threads
           then max (initEngine false 16).workers
             (min (initEngine false 16).cap
               ((initEngine false 16).workers
                 + ((initEngine false 16).q.length + 1
                     - (initEngine false 16).num_free_threads)))
           else (initEngine false 16).workers)
    ∧ PushRun Nat.succ [] [] [] ⟨0, 0, []⟩ (initEngine false 16) 7
        = (⟨0, 0, []⟩, pushPooled (initEngine false 16) 7,
           [PushEv.enqueueTask, PushEv.notifyWorkers]) :=
  C6_pending_growth (initEngine false 16) 7 Nat.succ [] [] [] ⟨0, 0, []⟩ rfl

/-- C7: in every reachable state the dequeue log followed by the remaining
queue equals the submission log, so dequeue order is exactly enqueue order;
with the pool capped at one worker the completion log followed by the
in-flight task and the queue equals the submission log, so completion order
follows submission order, as the concrete three-task run shows. -/
theorem C7_fifo_dequeue (naive : Bool) (cap : Nat) (ops : List EngineOp) :
    (runE (initEngine naive cap) ops).takenLog
        ++ (runE (initEngine naive cap) ops).q
      = (runE (initEngine naive cap) ops).pushedLog
    ∧ (runE (initEngine naive 1) ops).doneLog
        ++ ((runE (initEngine naive 1) ops).runningTasks
            ++ (runE (initEngine naive 1) ops).q)
      = (runE (initEngine naive 1) ops).pushedLog
    ∧ (runE (initEngine false 1)
        [EngineOp.push 1, EngineOp.push 2, EngineOp.push 3, EngineOp.take,
         EngineOp.finish 0, EngineOp.take, EngineOp.finish 0, EngineOp.take,
         EngineOp.finish 0]).doneLog = [1, 2, 3] :=
  ⟨runE_taken_q _ ops rfl,
   runE_cap1_done _ ops rfl rfl (Nat.zero_le _) rfl,
   by decide⟩

/-- C8: in every reachable engine state the idle count plus the number of
in-flight tasks equals the pool size: spawning adds one to each side, taking
a task moves one worker from idle to running, finishing moves it back; hence
the idle count never underflows and never exceeds the pool size. -/
theorem C8_idle_count_invariant (naive : Bool) (cap : Nat)
    (ops : List EngineOp) :
    (runE (initEngine naive cap) ops).num_free_threads
        + (runE (initEngine naive cap) ops).runningTasks.length
      = (runE (initEngine naive cap) ops).workers
    ∧ (runE (initEngine naive cap) ops).num_free_threads
        ≤ (runE (initEngine naive cap) ops).workers := by
  have h := runE_free_running (initEngine naive cap) ops rfl
  exact ⟨h, by omega⟩

/-- C10: a worker never leaves its loop while the queue holds a task, even
when destructing is already set; when a worker exit actually happens the
queue is empty and every pushed task has been dequeued for execution; the
destructor joins each worker exactly once in pooled mode and returns at once
in naive mode without touching worker state. -/
theorem C10_drain_join (s : Engine) (naive : Bool) (cap : Nat)
    (ops : List EngineOp) :
    (s.q ≠ [] → stepE s EngineOp.exitWorker = s)
    ∧ (stepE (runE (initEngine naive cap) ops) EngineOp.exitWorker
          ≠ runE (initEngine naive cap) ops →
        (runE (initEngine naive cap) ops).q = []
        ∧ (runE (initEngine naive cap) ops).takenLog
            = (runE (initEngine naive cap) ops).pushedLog)
    ∧ (s.naive_engine = true → destructorRun s = s ∧ destructorJoins s = 0)
    ∧ (s.naive_engine = false →
        (destructorRun s).destructing = true
        ∧ destructorJoins s = s.workers) := by
  refine ⟨?_, ?_, ?_, ?_⟩
  · intro hq
    simp only [stepE]
    rw [if_neg]
    intro hcon
    exact hq hcon.1
  · intro hne
    by_cases hg : (runE (initEngine naive cap) ops).q = []
        ∧ (runE (initEngine naive cap) ops).destructing = true
        ∧ (runE (initEngine naive cap) ops).exited
            < (runE (initEngine naive cap) ops).workers
    · refine ⟨hg.1, ?_⟩
      have h := runE_taken_q (initEngine naive cap) ops rfl
      rw [hg.1, List.append_nil] at h
      exact h
    · exfalso
      apply hne
      simp only [stepE]
      rw [if_neg hg]
  · intro h
    simp [destructorRun, destructorJoins, h]
  · intro h
    simp [destructorRun, destructorJoins, h]

/-- Witness for C10: the exit guard blocks on a non-empty queue; after a
drain and shutdown an exit does happen with the queue empty and the logs
equal; the destructor is a no-op on a naive engine and joins each worker of
a pooled one. -/
theorem C10_drain_join_witness :
    stepE (runE (initEngine false 16) [EngineOp.push 5]) EngineOp.exitWorker
        = runE (initEngine false 16) [EngineOp.push 5]
    ∧ ((runE (initEngine false 16)
          [EngineOp.push 5, EngineOp.take, EngineOp.finish 0,
           EngineOp.shutdown]).q = []
        ∧ (runE (initEngine false 16)
          [EngineOp.push 5, EngineOp.take, EngineOp.finish 0,
           EngineOp.shutdown]).takenLog
          = (runE (initEngine false 16)
          [EngineOp.push 5, EngineOp.take, EngineOp.finish 0,
           EngineOp.shutdown]).pushedLog)
    ∧ (destructorRun (initEngine true 4) = initEngine true 4
        ∧ destructorJoins (initEngine true 4) = 0)
    ∧ ((destructorRun
          (runE (initEngine false 16) [EngineOp.push 5])).destructing = true
        ∧ destructorJoins (runE (initEngine false 16) [EngineOp.push 5])
            = (runE (initEngine false 16) [EngineOp.push 5]).workers) :=
  ⟨(C10_drain_join (runE (initEngine false 16) [EngineOp.push 5])
      false 16 []).1 (by decide),
   (C10_drain_join (initEngine false 16) false 16
      [EngineOp.push 5, EngineOp.take, EngineOp.finish 0,
       EngineOp.shutdown]).2.1 (by decide),
   (C10_drain_join (initEngine true 4) false 16 []).2.2.1 (by decide),
   (C10_drain_join (runE (initEngine false 16) [EngineOp.push 5])
      false 16 []).2.2.2 (by decide)⟩

theorem buildVarsGo_fst (tags output_tags : List Int) (l : List NDArray)
    (idx : Nat) :
    (buildVarsGo tags output_tags l idx).1 = l.map NDArray.var := by
  induction l generalizing idx with
  | nil => rfl
  | cons a rest ih =>
    simp only [buildVarsGo, List.map_cons]
    by_cases ht : tags.getD idx 0 ∈ output_tags
    · rw [if_pos ht]
      by_cases hs : skipsReconcile a
      · rw [if_pos hs]
        simp [ih]
      · rw [if_neg hs]
        simp [ih]
    · rw [if_neg ht]
      simp [ih]

theorem buildVarsGo_snd (tags output_tags : List Int) (l : List NDArray)
    (idx : Nat) :
    (buildVarsGo tags output_tags l idx).2
      = writeVarsDescribed tags output_tags l idx := by
  induction l generalizing idx with
  | nil => rfl
  | cons a rest ih =>
    simp only [buildVarsGo, writeVarsDescribed]
    by_cases ht : tags.getD idx 0 ∈ output_tags
    · rw [if_pos ht]
      by_cases hs : skipsReconcile a
      · rw [if_pos hs, if_neg (by simp [hs])]
        simp [ih]
      · rw [if_neg hs, if_pos ⟨ht, hs⟩]
        simp [ih]
    · rw [if_neg ht, if_neg (fun hc => ht hc.1)]
      simp [ih]

/-- C9: the read-variable list handed to PushSync contains the var of every
entry of arrs in index order, while the write-variable list is driven by the
running append counter idx rather than the loop position: position i
contributes its var exactly when output_tags contains the tag indexed by the
running count and the entry is neither dense nor undefined, and an entry
passing the tag test but dense or undefined is skipped without incrementing
the counter; consequently the write list can differ from the variables of
the non-dense output-tagged entries, as the concrete two-entry input
exhibits. -/
theorem C9_pushsync_vars (arrs : List NDArray) (tags output_tags : List Int) :
    (buildVars arrs tags output_tags).1 = arrs.map NDArray.var
    ∧ (buildVars arrs tags output_tags).2
        = writeVarsDescribed tags output_tags arrs 0
    ∧ (buildVars
          [⟨1, 1, StorageType.kRowSparseStorage⟩,
           ⟨2, 2, StorageType.kRowSparseStorage⟩] [5, 0] [0]).2
        ≠ (qualifying
          [⟨1, 1, StorageType.kRowSparseStorage⟩,
           ⟨2, 2, StorageType.kRowSparseStorage⟩] [5, 0] [0]).map
            NDArray.var :=
  ⟨buildVarsGo_fst tags output_tags arrs 0,
   buildVarsGo_snd tags output_tags arrs 0,
   by decide⟩

end Custom
